import Mathlib

/-!
A shallow embedding of `src/yahooquery_to_mongodb.py` and proofs about its
three core routines:

* `chunked` (source lines 29-31): split a list into contiguous groups;
* `fetch_us_equity_symbols` (source lines 34-85): paginated enumeration of
  screener symbols with an optional global cap;
* `upsert_company_data` (source lines 88-127): per-chunk detail fetch and a
  single unordered bulk upsert of one write operation per symbol.

External collaborators (the screener endpoint, `yahooquery.Ticker` and the
MongoDB collection) are modelled as explicit inputs: the screener as a
function from request offset to the response's `result` list, the detail
fetch as a function from batch to an optional identifier-to-record mapping
(`none` models a transport failure), and the store as a list of documents
with MongoDB's first-match `UpdateOne`/`$set`/upsert semantics.  Since the
Python loop has no built-in bound, the pagination loop is fuel-indexed and
returns `none` exactly when the fuel runs out before the loop breaks.
-/

/-- One entry of a screener page (one `quote` dict of `results[0]["quotes"]`).
Only the `"symbol"` key is ever read (line 73); `symbol = none` models a dict
without the `"symbol"` key. -/
structure Quote where
  symbol : Option String
deriving DecidableEq

/-- An opaque detail payload (the per-symbol module data); the code never
inspects it, so a JSON-ish association list stands in for the dict. -/
abbrev DetailRecord := List (String × String)

/-- Inner loop of `chunked`, structurally recursive on fuel; fuel
`items.length` is always enough because each step drops at least one
element when `size > 0`. -/
def chunkedGo (size : Nat) : Nat → List α → List (List α)
  | 0, _ => []
  | fuel + 1, items =>
    if items.isEmpty then []
    else items.take size :: chunkedGo size fuel (items.drop size)

/-- `chunked(items, size)` (lines 29-31):
`for start in range(0, len(items), size): yield items[start : start + size]`.
A step of `0` makes Python's `range` raise `ValueError`; that case is modelled
as `[]` and never used (every theorem assumes `0 < size`). -/
def chunked (items : List α) (size : Nat) : List (List α) :=
  if size = 0 then [] else chunkedGo size items.length items

/-- The cap test of line 40:
`max_symbols is not None and len(symbols) >= max_symbols`. -/
def capReached (maxSymbols : Option Nat) (symbols : List String) : Bool :=
  match maxSymbols with
  | some m => decide (m ≤ symbols.length)
  | none => false

/-- The `while True` loop of `fetch_us_equity_symbols` (lines 39-81).
`resp offset` is the `result` list of the screener response for that offset
(each element standing for `entry.get("quotes", [])`).  Fuel-indexed:
`none` means the fuel ran out before the loop hit a `break`. -/
def fetchGo (resp : Nat → List (List Quote)) (pageSize : Nat)
    (maxSymbols : Option Nat) : Nat → List String → Nat → Option (List String)
  | 0, _, _ => none
  | fuel + 1, symbols, offset =>
    if capReached maxSymbols symbols then some symbols
    else
      match resp offset with
      | [] => some symbols
      | quotes :: _ =>
        if quotes = [] then some symbols
        else
          let symbols' := symbols ++ quotes.filterMap Quote.symbol
          if quotes.length < pageSize then some symbols'
          else fetchGo resp pageSize maxSymbols fuel symbols' (offset + pageSize)

/-- `fetch_us_equity_symbols(page_size, max_symbols)` (lines 34-85): run the
pagination loop from `symbols = []`, `offset = 0`, then truncate to
`max_symbols` when a cap is given (lines 83-85). -/
def fetch_us_equity_symbols (resp : Nat → List (List Quote)) (pageSize : Nat)
    (maxSymbols : Option Nat) (fuel : Nat) : Option (List String) :=
  (fetchGo resp pageSize maxSymbols fuel [] 0).map fun symbols =>
    match maxSymbols with
    | some m => symbols.take m
    | none => symbols

/-- A finite upstream page: the response at this offset breaks the loop,
either by an empty `result` list (line 66), an empty `quotes` list (line 70),
or a short page (line 78). -/
def pageBreaksB (results : List (List Quote)) (pageSize : Nat) : Bool :=
  match results with
  | [] => true
  | quotes :: _ => quotes.isEmpty || decide (quotes.length < pageSize)

/-- One `UpdateOne({"symbol": symbol}, {"$set": {...}}, upsert=True)` write
operation (lines 106-118): the filter key together with the three `$set`
fields. -/
structure UpdateOp where
  symbol : String
  last_updated : Nat
  data : DetailRecord
deriving DecidableEq

/-- A document of the MongoDB collection.  `extra` holds any other top-level
fields of the stored document, which a `$set` update never touches. -/
structure StoredDoc where
  symbol : String
  last_updated : Nat
  data : DetailRecord
  extra : List (String × String)
deriving DecidableEq

/-- Apply the `$set` part of an operation to an existing document: the three
listed fields are overwritten, every other field (`extra`) is kept. -/
def setFields (d : StoredDoc) (op : UpdateOp) : StoredDoc :=
  { d with symbol := op.symbol, last_updated := op.last_updated, data := op.data }

/-- The document inserted when an upsert finds no match: filter plus `$set`
fields, no other fields. -/
def newDoc (op : UpdateOp) : StoredDoc :=
  { symbol := op.symbol, last_updated := op.last_updated, data := op.data, extra := [] }

/-- MongoDB `UpdateOne(filter, {"$set": ...}, upsert=True)` against a list
model of the collection: update the first document matching the filter, or
insert a fresh document when none matches. -/
def applyUpdateOne : List StoredDoc → UpdateOp → List StoredDoc
  | [], op => [newDoc op]
  | d :: ds, op =>
    if d.symbol = op.symbol then setFields d op :: ds
    else d :: applyUpdateOne ds op

/-- Modelled from the spec: the store's unordered bulk write
(`collection.bulk_write(operations, ordered=False)`, line 121), whose
execution semantics live in the external store, not in this repository.
Every operation is attempted; a rejected operation leaves the store
unchanged but does not prevent the remaining operations; the second
component reports whether any operation was rejected, raised only after
attempting all of them. -/
def bulkWriteUnordered (store : List StoredDoc) (ops : List UpdateOp)
    (rejected : UpdateOp → Bool) : List StoredDoc × Bool :=
  (ops.foldl (fun s op => if rejected op then s else applyUpdateOne s op) store,
   ops.any rejected)

/-- The `operations` list built by the per-symbol loop (lines 101-118):
one operation per symbol of the batch, with `data.get(symbol, {})` as the
payload and the batch's single timestamp. -/
def buildOps (batch_symbols : List String) (data : String → Option DetailRecord)
    (timestamp : Nat) : List UpdateOp :=
  batch_symbols.map fun symbol =>
    { symbol := symbol, last_updated := timestamp, data := (data symbol).getD [] }

/-- One batch body of `upsert_company_data` (lines 101-121): build the
operations and, when the list is non-empty (`if operations:`), submit them
as one unordered bulk write with no store-side rejections. -/
def upsertChunk (store : List StoredDoc) (batch_symbols : List String)
    (data : String → Option DetailRecord) (timestamp : Nat) : List StoredDoc :=
  let operations := buildOps batch_symbols data timestamp
  if operations.isEmpty then store
  else (bulkWriteUnordered store operations (fun _ => false)).1

/-- Number of documents in the store whose `symbol` key matches `s`. -/
def countKey (store : List StoredDoc) (s : String) : Nat :=
  (store.filter fun d => d.symbol == s).length

/-- The chunk loop of `upsert_company_data` (lines 96-127) in an error monad.
`fetchData idx batch modules` models `Ticker(batch).get_modules(modules)` for
batch number `idx` (`none` is a transport failure of that call), `writeOk idx`
models whether that batch's `bulk_write` call itself succeeds, and
`clock idx` is `dt.datetime.utcnow()` sampled once for that batch.  Neither
failure is caught in the source, so a failing chunk stops the recursion and
surfaces the store as it stood before that chunk. -/
def runChunks (fetchData : Nat → List String → List String → Option (String → Option DetailRecord))
    (modules : List String) (writeOk : Nat → Bool) (clock : Nat → Nat) :
    List StoredDoc → List (List String) → Nat → Except (List StoredDoc) (List StoredDoc)
  | store, [], _ => .ok store
  | store, batch :: rest, idx =>
    match fetchData idx batch modules with
    | none => .error store
    | some data =>
      if (buildOps batch data (clock idx)).isEmpty then
        runChunks fetchData modules writeOk clock store rest (idx + 1)
      else if writeOk idx then
        runChunks fetchData modules writeOk clock
          (upsertChunk store batch data (clock idx)) rest (idx + 1)
      else .error store

/-- The failure-free chunk loop: every batch's fetch and write succeed and
its documents are persisted.  (`getD` is only ever taken on `some` values in
the theorems below.) -/
def runChunksOk (fetchData : Nat → List String → List String → Option (String → Option DetailRecord))
    (modules : List String) (clock : Nat → Nat) :
    List StoredDoc → List (List String) → Nat → List StoredDoc
  | store, [], _ => store
  | store, batch :: rest, idx =>
    runChunksOk fetchData modules clock
      (upsertChunk store batch ((fetchData idx batch modules).getD fun _ => none) (clock idx))
      rest (idx + 1)

/-- `upsert_company_data(collection, symbols, modules, batch_size)`
(lines 88-127): iterate `chunked(symbols, batch_size)` with batch numbers
starting at 1 (`enumerate(..., start=1)`). -/
def upsert_company_data (store : List StoredDoc) (symbols : List String)
    (modules : List String) (batch_size : Nat)
    (fetchData : Nat → List String → List String → Option (String → Option DetailRecord))
    (writeOk : Nat → Bool) (clock : Nat → Nat) :
    Except (List StoredDoc) (List StoredDoc) :=
  runChunks fetchData modules writeOk clock store (chunked symbols batch_size) 1

/-! ### Concrete screener/store instances used to exercise the theorems -/

/-- A two-page screener: offset 0 returns `[A, B]`, offset 2 the short page
`[C]`, anything else an empty `result`. -/
def respEx : Nat → List (List Quote) := fun offset =>
  if offset = 0 then [[{ symbol := some "A" }, { symbol := some "B" }]]
  else if offset = 2 then [[{ symbol := some "C" }]]
  else []

/-- A screener whose single page holds one quote whose `"symbol"` value is
the empty string. -/
def respEmptyTok : Nat → List (List Quote) := fun _ =>
  [[{ symbol := some "" }]]

/-- A single page mixing a quote without a `"symbol"` key, a normal quote and
a quote with an empty token. -/
def quotesMixed : List Quote :=
  [{ symbol := none }, { symbol := some "A" }, { symbol := some "" }]

/-- A detail mapping defined on `A` only. -/
def exData : String → Option DetailRecord := fun s =>
  if s = "A" then some [("x", "1")] else none

/-- A document for `A` carrying an unrelated top-level field. -/
def docA : StoredDoc :=
  { symbol := "A", last_updated := 7, data := [("old", "v")], extra := [("note", "keep")] }

/-- A store holding just that document. -/
def exStore : List StoredDoc := [docA]

/-- A detail fetcher that succeeds on batch 1 (with an empty mapping) and
fails from batch 2 on. -/
def fEx : Nat → List String → List String → Option (String → Option DetailRecord) :=
  fun idx _ _ => if idx = 1 then some (fun _ => none) else none

/-! ### Properties of `chunked` -/

theorem chunkedGo_nil (size : Nat) : ∀ fuel, chunkedGo size fuel ([] : List α) = []
  | 0 => rfl
  | _ + 1 => rfl

theorem chunkedGo_cons (size fuel : Nat) (items : List α) (h : items ≠ []) :
    chunkedGo size (fuel + 1) items =
      items.take size :: chunkedGo size fuel (items.drop size) := by
  simp [chunkedGo, h]

theorem chunkedGo_ne_nil (size fuel : Nat) (items : List α) (h : items ≠ [])
    (hf : items.length ≤ fuel) : chunkedGo size fuel items ≠ [] := by
  cases fuel with
  | zero =>
    have : items = [] := List.eq_nil_of_length_eq_zero (Nat.le_zero.mp hf)
    exact absurd this h
  | succ n => rw [chunkedGo_cons size n items h]; simp

theorem chunkedGo_fuel (size : Nat) (hs : size ≠ 0) :
    ∀ fuel fuel' (items : List α), items.length ≤ fuel → items.length ≤ fuel' →
      chunkedGo size fuel items = chunkedGo size fuel' items := by
  intro fuel
  induction fuel with
  | zero =>
    intro fuel' items h _
    have : items = [] := List.eq_nil_of_length_eq_zero (Nat.le_zero.mp h)
    simp [this, chunkedGo_nil]
  | succ n ih =>
    intro fuel' items h h'
    by_cases he : items = []
    · simp [he, chunkedGo_nil]
    · have hpos : 0 < items.length := List.length_pos.mpr he
      cases fuel' with
      | zero => omega
      | succ n' =>
        rw [chunkedGo_cons size n items he, chunkedGo_cons size n' items he]
        have hd : (items.drop size).length = items.length - size := List.length_drop ..
        rw [ih n' (items.drop size) (by omega) (by omega)]

theorem chunked_cons (items : List α) (size : Nat) (he : items ≠ []) (hs : size ≠ 0) :
    chunked items size = items.take size :: chunked (items.drop size) size := by
  unfold chunked
  rw [if_neg hs, if_neg hs]
  have hpos : 0 < items.length := List.length_pos.mpr he
  obtain ⟨n, hn⟩ : ∃ n, items.length = n + 1 := ⟨items.length - 1, by omega⟩
  rw [hn, chunkedGo_cons size n items he]
  have hd : (items.drop size).length = items.length - size := List.length_drop ..
  rw [chunkedGo_fuel size hs n (items.drop size).length (items.drop size) (by omega) le_rfl]

theorem chunkedGo_flatten (size : Nat) (hs : size ≠ 0) :
    ∀ (fuel : Nat) (items : List α), items.length ≤ fuel →
      (chunkedGo size fuel items).flatten = items := by
  intro fuel
  induction fuel with
  | zero =>
    intro items h
    have : items = [] := List.eq_nil_of_length_eq_zero (Nat.le_zero.mp h)
    simp [this, chunkedGo_nil]
  | succ n ih =>
    intro items h
    by_cases he : items = []
    · simp [he, chunkedGo_nil]
    · have hpos : 0 < items.length := List.length_pos.mpr he
      have hd : (items.drop size).length = items.length - size := List.length_drop ..
      rw [chunkedGo_cons size n items he, List.flatten_cons,
        ih (items.drop size) (by omega), List.take_append_drop]

theorem chunkedGo_mem_length (size : Nat) (hs : size ≠ 0) :
    ∀ (fuel : Nat) (items : List α), items.length ≤ fuel →
      ∀ c ∈ chunkedGo size fuel items, 1 ≤ c.length ∧ c.length ≤ size := by
  intro fuel
  induction fuel with
  | zero =>
    intro items h
    have : items = [] := List.eq_nil_of_length_eq_zero (Nat.le_zero.mp h)
    simp [this, chunkedGo_nil]
  | succ n ih =>
    intro items h c hc
    by_cases he : items = []
    · simp [he, chunkedGo_nil] at hc
    · have hpos : 0 < items.length := List.length_pos.mpr he
      have hd : (items.drop size).length = items.length - size := List.length_drop ..
      rw [chunkedGo_cons size n items he] at hc
      rcases List.mem_cons.mp hc with rfl | hmem
      · have htk : (items.take size).length = min size items.length := List.length_take ..
        constructor <;> omega
      · exact ih (items.drop size) (by omega) c hmem

theorem chunkedGo_dropLast (size : Nat) (hs : size ≠ 0) :
    ∀ (fuel : Nat) (items : List α), items.length ≤ fuel →
      ∀ c ∈ (chunkedGo size fuel items).dropLast, c.length = size := by
  intro fuel
  induction fuel with
  | zero =>
    intro items h
    have : items = [] := List.eq_nil_of_length_eq_zero (Nat.le_zero.mp h)
    simp [this, chunkedGo_nil]
  | succ n ih =>
    intro items h c hc
    by_cases he : items = []
    · simp [he, chunkedGo_nil] at hc
    · have hpos : 0 < items.length := List.length_pos.mpr he
      have hd : (items.drop size).length = items.length - size := List.length_drop ..
      rw [chunkedGo_cons size n items he] at hc
      by_cases hrest : items.drop size = []
      · rw [hrest, chunkedGo_nil] at hc
        simp [List.dropLast] at hc
      · have hne : chunkedGo size n (items.drop size) ≠ [] :=
          chunkedGo_ne_nil size n (items.drop size) hrest (by omega)
        rw [List.dropLast_cons_of_ne_nil hne] at hc
        rcases List.mem_cons.mp hc with rfl | hmem
        · have hlt : ¬ items.length ≤ size := fun hle =>
            hrest (List.drop_eq_nil_iff.mpr hle)
          have htk : (items.take size).length = min size items.length := List.length_take ..
          omega
        · exact ih (items.drop size) (by omega) c hmem

theorem chunked_eq_nil_iff (items : List α) (size : Nat) (hs : size ≠ 0) :
    chunked items size = [] ↔ items = [] := by
  constructor
  · intro h
    by_contra he
    exact chunkedGo_ne_nil size items.length items he le_rfl (by simpa [chunked, hs] using h)
  · intro h
    simp [h, chunked, chunkedGo_nil]

/-- C2: concatenating the chunks of `chunked(items, size)` reproduces `items`
in order; every chunk except possibly the last has length exactly `size`;
every chunk (in particular the last) has length in `[1, size]`; and there are
zero chunks iff `items` is empty. -/
theorem chunked_partition (items : List String) (size : Nat) (hs : 0 < size) :
    (chunked items size).flatten = items ∧
    (∀ c ∈ (chunked items size).dropLast, c.length = size) ∧
    (∀ c ∈ chunked items size, 1 ≤ c.length ∧ c.length ≤ size) ∧
    (chunked items size = [] ↔ items = []) := by
  have hs' : size ≠ 0 := Nat.pos_iff_ne_zero.mp hs
  refine ⟨?_, ?_, ?_, chunked_eq_nil_iff items size hs'⟩
  · simpa [chunked, hs'] using chunkedGo_flatten size hs' items.length items le_rfl
  · simpa [chunked, hs'] using chunkedGo_dropLast size hs' items.length items le_rfl
  · simpa [chunked, hs'] using chunkedGo_mem_length size hs' items.length items le_rfl

/-- Witness for C2 at `items = [A, B, C]`, `size = 2`. -/
theorem chunked_partition_witness :
    (chunked ["A", "B", "C"] 2).flatten = ["A", "B", "C"] ∧
    (∀ c ∈ (chunked ["A", "B", "C"] 2).dropLast, c.length = 2) ∧
    (∀ c ∈ chunked ["A", "B", "C"] 2, 1 ≤ c.length ∧ c.length ≤ 2) ∧
    (chunked ["A", "B", "C"] 2 = [] ↔ ["A", "B", "C"] = ([] : List String)) :=
  chunked_partition ["A", "B", "C"] 2 (by decide)

/-! ### Properties of the pagination loop -/

theorem fetchGo_zero (resp : Nat → List (List Quote)) (p : Nat) (maxS : Option Nat)
    (symbols : List String) (offset : Nat) :
    fetchGo resp p maxS 0 symbols offset = none := rfl

theorem fetchGo_succ_cap (resp : Nat → List (List Quote)) (p : Nat) (maxS : Option Nat)
    (fuel : Nat) (symbols : List String) (offset : Nat)
    (hc : capReached maxS symbols = true) :
    fetchGo resp p maxS (fuel + 1) symbols offset = some symbols := by
  simp [fetchGo, hc]

theorem fetchGo_succ_nil (resp : Nat → List (List Quote)) (p : Nat) (maxS : Option Nat)
    (fuel : Nat) (symbols : List String) (offset : Nat)
    (hc : capReached maxS symbols = false) (hr : resp offset = []) :
    fetchGo resp p maxS (fuel + 1) symbols offset = some symbols := by
  simp [fetchGo, hc, hr]

theorem fetchGo_succ_qnil (resp : Nat → List (List Quote)) (p : Nat) (maxS : Option Nat)
    (fuel : Nat) (symbols : List String) (offset : Nat) (rest : List (List Quote))
    (hc : capReached maxS symbols = false) (hr : resp offset = [] :: rest) :
    fetchGo resp p maxS (fuel + 1) symbols offset = some symbols := by
  simp [fetchGo, hc, hr]

theorem fetchGo_succ_short (resp : Nat → List (List Quote)) (p : Nat) (maxS : Option Nat)
    (fuel : Nat) (symbols : List String) (offset : Nat)
    (quotes : List Quote) (rest : List (List Quote))
    (hc : capReached maxS symbols = false) (hr : resp offset = quotes :: rest)
    (hq : quotes ≠ []) (hlt : quotes.length < p) :
    fetchGo resp p maxS (fuel + 1) symbols offset =
      some (symbols ++ quotes.filterMap Quote.symbol) := by
  simp [fetchGo, hc, hr, hq, hlt]

theorem fetchGo_succ_cont (resp : Nat → List (List Quote)) (p : Nat) (maxS : Option Nat)
    (fuel : Nat) (symbols : List String) (offset : Nat)
    (quotes : List Quote) (rest : List (List Quote))
    (hc : capReached maxS symbols = false) (hr : resp offset = quotes :: rest)
    (hq : quotes ≠ []) (hlt : ¬ quotes.length < p) :
    fetchGo resp p maxS (fuel + 1) symbols offset =
      fetchGo resp p maxS fuel (symbols ++ quotes.filterMap Quote.symbol) (offset + p) := by
  simp [fetchGo, hc, hr, hq, hlt]

/-- The loop only ever appends: a successful run extends its accumulator. -/
theorem fetchGo_extends (resp : Nat → List (List Quote)) (p : Nat) (maxS : Option Nat) :
    ∀ (fuel : Nat) (symbols : List String) (offset : Nat) (u : List String),
      fetchGo resp p maxS fuel symbols offset = some u → ∃ t, u = symbols ++ t := by
  intro fuel
  induction fuel with
  | zero => intro s o u h; exact absurd h (by simp [fetchGo])
  | succ n ih =>
    intro s o u h
    cases hc : capReached maxS s with
    | true =>
      rw [fetchGo_succ_cap resp p maxS n s o hc] at h
      exact ⟨[], by simp [(Option.some.inj h).symm]⟩
    | false =>
      cases hr : resp o with
      | nil =>
        rw [fetchGo_succ_nil resp p maxS n s o hc hr] at h
        exact ⟨[], by simp [(Option.some.inj h).symm]⟩
      | cons quotes rest =>
        by_cases hq : quotes = []
        · subst hq
          rw [fetchGo_succ_qnil resp p maxS n s o rest hc hr] at h
          exact ⟨[], by simp [(Option.some.inj h).symm]⟩
        · by_cases hlt : quotes.length < p
          · rw [fetchGo_succ_short resp p maxS n s o quotes rest hc hr hq hlt] at h
            exact ⟨quotes.filterMap Quote.symbol, (Option.some.inj h).symm⟩
          · rw [fetchGo_succ_cont resp p maxS n s o quotes rest hc hr hq hlt] at h
            obtain ⟨t, ht⟩ := ih (s ++ quotes.filterMap Quote.symbol) (o + p) u h
            exact ⟨quotes.filterMap Quote.symbol ++ t, by simp [ht]⟩

/-- A capped run follows the uncapped run page by page: with the same fuel it
also succeeds, and its result is either the whole uncapped result or a
cap-exceeding prefix of it. -/
theorem fetchGo_cap_of_none (resp : Nat → List (List Quote)) (p m : Nat) :
    ∀ (fuel : Nat) (symbols : List String) (offset : Nat) (u : List String),
      fetchGo resp p none fuel symbols offset = some u →
      ∃ c, fetchGo resp p (some m) fuel symbols offset = some c ∧
        (c = u ∨ (m ≤ c.length ∧ ∃ t, u = c ++ t)) := by
  intro fuel
  induction fuel with
  | zero => intro s o u h; exact absurd h (by simp [fetchGo])
  | succ n ih =>
    intro s o u h
    have hnone : capReached none s = false := rfl
    cases hc : capReached (some m) s with
    | true =>
      refine ⟨s, fetchGo_succ_cap resp p (some m) n s o hc, Or.inr ⟨?_, ?_⟩⟩
      · have : decide (m ≤ s.length) = true := hc
        exact of_decide_eq_true this
      · exact fetchGo_extends resp p none (n + 1) s o u h
    | false =>
      cases hr : resp o with
      | nil =>
        rw [fetchGo_succ_nil resp p none n s o hnone hr] at h
        obtain rfl := Option.some.inj h
        exact ⟨s, fetchGo_succ_nil resp p (some m) n s o hc hr, Or.inl rfl⟩
      | cons quotes rest =>
        by_cases hq : quotes = []
        · subst hq
          rw [fetchGo_succ_qnil resp p none n s o rest hnone hr] at h
          obtain rfl := Option.some.inj h
          exact ⟨s, fetchGo_succ_qnil resp p (some m) n s o rest hc hr, Or.inl rfl⟩
        · by_cases hlt : quotes.length < p
          · rw [fetchGo_succ_short resp p none n s o quotes rest hnone hr hq hlt] at h
            obtain rfl := Option.some.inj h
            exact ⟨s ++ quotes.filterMap Quote.symbol,
              fetchGo_succ_short resp p (some m) n s o quotes rest hc hr hq hlt, Or.inl rfl⟩
          · rw [fetchGo_succ_cont resp p none n s o quotes rest hnone hr hq hlt] at h
            obtain ⟨c, hcEq, hrel⟩ := ih (s ++ quotes.filterMap Quote.symbol) (o + p) u h
            refine ⟨c, ?_, hrel⟩
            rw [fetchGo_succ_cont resp p (some m) n s o quotes rest hc hr hq hlt]
            exact hcEq

/-- C1: for every `maxCount` the capped enumeration returns at most
`maxCount` identifiers, and whenever the unbounded enumeration returns a
longer list, the capped run returns exactly its first `maxCount`
identifiers, in order. -/
theorem fetch_cap_correct (resp : Nat → List (List Quote)) (p m fuel : Nat) :
    (∀ r, fetch_us_equity_symbols resp p (some m) fuel = some r → r.length ≤ m) ∧
    (∀ u, fetch_us_equity_symbols resp p none fuel = some u → m < u.length →
      fetch_us_equity_symbols resp p (some m) fuel = some (u.take m) ∧
        (u.take m).length = m) := by
  constructor
  · intro r hr
    unfold fetch_us_equity_symbols at hr
    obtain ⟨s, _, rfl⟩ := Option.map_eq_some'.mp hr
    exact List.length_take_le ..
  · intro u hu hm
    unfold fetch_us_equity_symbols at hu ⊢
    obtain ⟨s, hs, hsu⟩ := Option.map_eq_some'.mp hu
    have hsu' : s = u := hsu
    subst hsu'
    obtain ⟨c, hc, hrel⟩ := fetchGo_cap_of_none resp p m fuel [] 0 s hs
    rw [hc]
    have htake : c.take m = s.take m := by
      rcases hrel with rfl | ⟨hlen, t, rfl⟩
      · rfl
      · rw [List.take_append_eq_append_take ..]
        simp [Nat.sub_eq_zero_of_le hlen]
    refine ⟨by simp [htake], ?_⟩
    have hlt : (s.take m).length = min m s.length := List.length_take ..
    omega

/-- Witness for C1: two pages `[A, B]` and `[C]` with `pageSize = 2`; the
unbounded run yields `[A, B, C]`, exceeding the cap `m = 2`. -/
theorem fetch_cap_correct_witness :
    fetch_us_equity_symbols respEx 2 (some 2) 3 = some (["A", "B", "C"].take 2) ∧
      (["A", "B", "C"].take 2).length = 2 :=
  (fetch_cap_correct respEx 2 2 3).2 ["A", "B", "C"] (by decide) (by decide)

/-- If some later page breaks the loop, the loop terminates once it reaches
that page, whatever the accumulator. -/
theorem fetchGo_breaks (resp : Nat → List (List Quote)) (p : Nat) (maxS : Option Nat) :
    ∀ (k i : Nat) (symbols : List String),
      pageBreaksB (resp ((i + k) * p)) p = true →
      ∃ r, fetchGo resp p maxS (k + 1) symbols (i * p) = some r := by
  intro k
  induction k with
  | zero =>
    intro i s hb
    cases hc : capReached maxS s with
    | true => exact ⟨s, fetchGo_succ_cap resp p maxS 0 s (i * p) hc⟩
    | false =>
      cases hr : resp (i * p) with
      | nil => exact ⟨s, fetchGo_succ_nil resp p maxS 0 s (i * p) hc hr⟩
      | cons quotes rest =>
        by_cases hq : quotes = []
        · subst hq
          exact ⟨s, fetchGo_succ_qnil resp p maxS 0 s (i * p) rest hc hr⟩
        · have hlt : quotes.length < p := by
            rw [Nat.add_zero] at hb
            rw [hr] at hb
            simp only [pageBreaksB, Bool.or_eq_true, List.isEmpty_iff,
              decide_eq_true_eq] at hb
            rcases hb with hb | hb
            · exact absurd hb hq
            · exact hb
          exact ⟨s ++ quotes.filterMap Quote.symbol,
            fetchGo_succ_short resp p maxS 0 s (i * p) quotes rest hc hr hq hlt⟩
  | succ k ih =>
    intro i s hb
    cases hc : capReached maxS s with
    | true => exact ⟨s, fetchGo_succ_cap resp p maxS (k + 1) s (i * p) hc⟩
    | false =>
      cases hr : resp (i * p) with
      | nil => exact ⟨s, fetchGo_succ_nil resp p maxS (k + 1) s (i * p) hc hr⟩
      | cons quotes rest =>
        by_cases hq : quotes = []
        · subst hq
          exact ⟨s, fetchGo_succ_qnil resp p maxS (k + 1) s (i * p) rest hc hr⟩
        · by_cases hlt : quotes.length < p
          · exact ⟨s ++ quotes.filterMap Quote.symbol,
              fetchGo_succ_short resp p maxS (k + 1) s (i * p) quotes rest hc hr hq hlt⟩
          · have harith : (i + 1) + k = i + (k + 1) := by omega
            obtain ⟨r, hrr⟩ := ih (i + 1) (s ++ quotes.filterMap Quote.symbol)
              (by rw [harith]; exact hb)
            refine ⟨r, ?_⟩
            rw [fetchGo_succ_cont resp p maxS (k + 1) s (i * p) quotes rest hc hr hq hlt]
            rw [show i * p + p = (i + 1) * p from by ring]
            exact hrr

/-- C5: if the upstream page sequence is finite — some requested offset
returns an empty result, an empty quote list, or a short page — then the
enumeration terminates (for any cap), i.e. some finite fuel makes the
fuel-indexed loop return a result. -/
theorem fetch_terminates (resp : Nat → List (List Quote)) (p : Nat)
    (maxS : Option Nat) (k : Nat) (hb : pageBreaksB (resp (k * p)) p = true) :
    ∃ fuel r, fetch_us_equity_symbols resp p maxS fuel = some r := by
  obtain ⟨r, hr⟩ := fetchGo_breaks resp p maxS k 0 [] (by simpa using hb)
  rw [Nat.zero_mul] at hr
  cases maxS with
  | none =>
    exact ⟨k + 1, r, by unfold fetch_us_equity_symbols; rw [hr]; rfl⟩
  | some m =>
    exact ⟨k + 1, r.take m, by unfold fetch_us_equity_symbols; rw [hr]; rfl⟩

/-- Witness for C5: a screener that is empty from the first page on. -/
theorem fetch_terminates_witness :
    ∃ fuel r, fetch_us_equity_symbols (fun _ => []) 5 none fuel = some r :=
  fetch_terminates (fun _ => []) 5 none 0 (by decide)

/-- Counterexample to C6 as stated: a page whose only quote carries the
empty-string token.  The code keeps any quote that has a `"symbol"` key
(line 73), so the empty token IS appended, contradicting "entries with an
empty token are not appended". -/
theorem fetch_empty_token_counterexample :
    fetch_us_equity_symbols respEmptyTok 2 none 1 = some [""] := by decide

/-- C6 (amended): in each iteration the loop appends exactly the returned
entries whose identifier token is present — entries missing the token are
silently skipped, and entries with a present token are appended whatever its
value, including the empty string. -/
theorem fetch_appends_present_tokens (resp : Nat → List (List Quote)) (p : Nat)
    (maxS : Option Nat) (fuel : Nat) (symbols : List String) (offset : Nat)
    (quotes : List Quote) (rest : List (List Quote))
    (hc : capReached maxS symbols = false)
    (hr : resp offset = quotes :: rest) (hq : quotes ≠ []) :
    fetchGo resp p maxS (fuel + 1) symbols offset =
      if quotes.length < p then some (symbols ++ quotes.filterMap Quote.symbol)
      else fetchGo resp p maxS fuel (symbols ++ quotes.filterMap Quote.symbol)
        (offset + p) := by
  by_cases hlt : quotes.length < p
  · rw [if_pos hlt]
    exact fetchGo_succ_short resp p maxS fuel symbols offset quotes rest hc hr hq hlt
  · rw [if_neg hlt]
    exact fetchGo_succ_cont resp p maxS fuel symbols offset quotes rest hc hr hq hlt

/-- Witness for the amended C6: a page with a token-less quote, a normal
quote and an empty-token quote appends exactly `[A, empty string]`. -/
theorem fetch_appends_present_tokens_witness :
    fetchGo (fun _ => [quotesMixed]) 5 none 1 [] 0 =
      if quotesMixed.length < 5 then some ([] ++ quotesMixed.filterMap Quote.symbol)
      else fetchGo (fun _ => [quotesMixed]) 5 none 0
        ([] ++ quotesMixed.filterMap Quote.symbol) (0 + 5) :=
  fetch_appends_present_tokens (fun _ => [quotesMixed]) 5 none 0 [] 0 quotesMixed []
    (by decide) rfl (by decide)

/-! ### Properties of the upsert machinery -/

theorem bulkWrite_noReject (store : List StoredDoc) (ops : List UpdateOp) :
    (bulkWriteUnordered store ops (fun _ => false)).1 = ops.foldl applyUpdateOne store := by
  unfold bulkWriteUnordered
  simp

theorem upsertChunk_eq_foldl (store : List StoredDoc) (batch : List String)
    (data : String → Option DetailRecord) (ts : Nat) :
    upsertChunk store batch data ts =
      (buildOps batch data ts).foldl applyUpdateOne store := by
  unfold upsertChunk
  by_cases h : (buildOps batch data ts).isEmpty
  · rw [if_pos h, List.isEmpty_iff.mp h]
    rfl
  · rw [if_neg h, bulkWrite_noReject]

theorem countKey_nil (s : String) : countKey [] s = 0 := rfl

theorem countKey_cons (d : StoredDoc) (ds : List StoredDoc) (s : String) :
    countKey (d :: ds) s = (if d.symbol = s then 1 else 0) + countKey ds s := by
  unfold countKey
  rw [List.filter_cons]
  by_cases h : d.symbol = s
  · simp [h, Nat.add_comm]
  · simp [h]

theorem countKey_applyUpdateOne (op : UpdateOp) :
    ∀ (store : List StoredDoc) (s : String),
      countKey (applyUpdateOne store op) s =
        if op.symbol = s then max (countKey store s) 1 else countKey store s := by
  intro store
  induction store with
  | nil =>
    intro s
    simp only [applyUpdateOne]
    rw [countKey_cons, countKey_nil]
    by_cases h : op.symbol = s <;> simp [newDoc, h]
  | cons d ds ih =>
    intro s
    simp only [applyUpdateOne]
    by_cases hd : d.symbol = op.symbol
    · rw [if_pos hd, countKey_cons, countKey_cons]
      by_cases h : op.symbol = s
      · have hds : d.symbol = s := hd.trans h
        simp only [setFields, h, hds, if_pos]
        omega
      · have hds : ¬ d.symbol = s := fun hh => h (hd.symm.trans hh)
        simp [setFields, h, hds]
    · rw [if_neg hd, countKey_cons, countKey_cons, ih s]
      by_cases h : op.symbol = s
      · have hds : ¬ d.symbol = s := fun hh => hd (hh.trans h.symm)
        simp only [h, hds, if_pos, if_neg, if_true, if_false]
        omega
      · simp [h]

theorem countKey_foldl (s : String) :
    ∀ (ops : List UpdateOp) (store : List StoredDoc),
      countKey (ops.foldl applyUpdateOne store) s =
        if ∃ op ∈ ops, op.symbol = s then max (countKey store s) 1
        else countKey store s := by
  intro ops
  induction ops with
  | nil => intro store; simp
  | cons op rest ih =>
    intro store
    rw [List.foldl_cons, ih (applyUpdateOne store op), countKey_applyUpdateOne op store s]
    by_cases h1 : op.symbol = s <;> by_cases h2 : ∃ o ∈ rest, o.symbol = s
    · have hc : ∃ o ∈ op :: rest, o.symbol = s := ⟨op, List.mem_cons_self .., h1⟩
      simp only [h1, h2, hc, if_pos, if_true]
      omega
    · have hc : ∃ o ∈ op :: rest, o.symbol = s := ⟨op, List.mem_cons_self .., h1⟩
      simp [h1, h2, hc]
    · have hc : ∃ o ∈ op :: rest, o.symbol = s := by
        obtain ⟨o, ho, hos⟩ := h2
        exact ⟨o, List.mem_cons_of_mem _ ho, hos⟩
      simp [h1, h2, hc]
    · have hc : ¬ ∃ o ∈ op :: rest, o.symbol = s := by
        rintro ⟨o, ho, hos⟩
        rcases List.mem_cons.mp ho with rfl | hmem
        · exact h1 hos
        · exact h2 ⟨o, hmem, hos⟩
      simp [h1, h2, hc]

theorem buildOps_map_symbol (data : String → Option DetailRecord) (ts : Nat) :
    ∀ batch : List String, (buildOps batch data ts).map UpdateOp.symbol = batch := by
  intro batch
  induction batch with
  | nil => rfl
  | cons s rest ih =>
    simp only [buildOps, List.map_cons] at ih ⊢
    rw [ih]

/-- C3: one batch of `upsert_company_data` builds exactly one write operation
per identifier of the chunk, in order (so the operations' keys are exactly
the chunk); an identifier absent from the detail mapping still gets an
operation, carrying the empty/default detail record; and afterwards every
identifier of the chunk is keyed by exactly one document. -/
theorem upsert_full_coverage (store : List StoredDoc) (chunk : List String)
    (data : String → Option DetailRecord) (ts : Nat)
    (hU : ∀ s, countKey store s ≤ 1) :
    ((buildOps chunk data ts).map UpdateOp.symbol = chunk) ∧
    (∀ s ∈ chunk, data s = none →
      ({ symbol := s, last_updated := ts, data := [] } : UpdateOp) ∈
        buildOps chunk data ts) ∧
    (∀ s ∈ chunk, countKey (upsertChunk store chunk data ts) s = 1) := by
  refine ⟨buildOps_map_symbol data ts chunk, ?_, ?_⟩
  · intro s hs hnone
    have hmem : ({ symbol := s, last_updated := ts, data := (data s).getD [] } : UpdateOp) ∈
        buildOps chunk data ts := List.mem_map_of_mem _ hs
    rw [hnone] at hmem
    exact hmem
  · intro s hs
    rw [upsertChunk_eq_foldl, countKey_foldl]
    have hex : ∃ op ∈ buildOps chunk data ts, op.symbol = s :=
      ⟨_, List.mem_map_of_mem _ hs, rfl⟩
    rw [if_pos hex]
    have := hU s
    omega

/-- Witness for C3: empty store, chunk `[A, B]`, a mapping defined on `A`
only; `B` is written with the default record and both keys end up with
exactly one document. -/
theorem upsert_full_coverage_witness :
    ((buildOps ["A", "B"] exData 0).map UpdateOp.symbol = ["A", "B"]) ∧
    (∀ s ∈ ["A", "B"], exData s = none →
      ({ symbol := s, last_updated := 0, data := [] } : UpdateOp) ∈
        buildOps ["A", "B"] exData 0) ∧
    (∀ s ∈ ["A", "B"], countKey (upsertChunk [] ["A", "B"] exData 0) s = 1) :=
  upsert_full_coverage [] ["A", "B"] exData 0 (fun _ => Nat.zero_le 1)

/-! ### Idempotence of a batch of replace-on-key writes -/

theorem applyUpdateOne_idem (op : UpdateOp) :
    ∀ store : List StoredDoc,
      applyUpdateOne (applyUpdateOne store op) op = applyUpdateOne store op := by
  intro store
  induction store with
  | nil => simp [applyUpdateOne, newDoc, setFields]
  | cons d ds ih =>
    by_cases hd : d.symbol = op.symbol
    · simp [applyUpdateOne, hd, setFields]
    · simp [applyUpdateOne, hd, ih]

theorem applyUpdateOne_preserve (op o : UpdateOp) (hne : o.symbol ≠ op.symbol) :
    ∀ store : List StoredDoc, applyUpdateOne store op = store →
      applyUpdateOne (applyUpdateOne store o) op = applyUpdateOne store o := by
  intro store
  induction store with
  | nil =>
    intro h
    exact absurd h (by simp [applyUpdateOne])
  | cons d ds ih =>
    intro h
    by_cases hd : d.symbol = op.symbol
    · rw [applyUpdateOne, if_pos hd] at h
      have h1 : setFields d op = d := (List.cons.inj h).1
      have hd' : ¬ d.symbol = o.symbol := fun hh => hne (hh.symm.trans hd)
      rw [applyUpdateOne, if_neg hd', applyUpdateOne, if_pos hd, h1]
    · rw [applyUpdateOne, if_neg hd] at h
      have h2 : applyUpdateOne ds op = ds := (List.cons.inj h).2
      by_cases hd' : d.symbol = o.symbol
      · rw [applyUpdateOne, if_pos hd']
        have hsf : ¬ (setFields d o).symbol = op.symbol := by
          simp only [setFields]
          exact hne
        rw [applyUpdateOne, if_neg hsf, h2]
      · rw [applyUpdateOne, if_neg hd', applyUpdateOne, if_neg hd, ih h2]

theorem applyUpdateOne_sat_chain (op : UpdateOp) :
    ∀ (rest : List UpdateOp) (t : List StoredDoc),
      applyUpdateOne t op = t → (∀ o ∈ rest, o.symbol ≠ op.symbol) →
      applyUpdateOne (rest.foldl applyUpdateOne t) op = rest.foldl applyUpdateOne t := by
  intro rest
  induction rest with
  | nil => intro t h _; simpa using h
  | cons o os ih =>
    intro t h hne
    rw [List.foldl_cons]
    exact ih (applyUpdateOne t o)
      (applyUpdateOne_preserve op o (hne o (List.mem_cons_self ..)) t h)
      (fun o' ho' => hne o' (List.mem_cons_of_mem _ ho'))

theorem foldl_saturated :
    ∀ ops : List UpdateOp,
      (∀ o1 ∈ ops, ∀ o2 ∈ ops, o1.symbol = o2.symbol → o1 = o2) →
      ∀ store : List StoredDoc, ∀ op ∈ ops,
        applyUpdateOne (ops.foldl applyUpdateOne store) op =
          ops.foldl applyUpdateOne store := by
  intro ops
  induction ops with
  | nil => intro _ store op hop; simp at hop
  | cons o0 rest ih =>
    intro hgood store op hop
    have hgood' : ∀ o1 ∈ rest, ∀ o2 ∈ rest, o1.symbol = o2.symbol → o1 = o2 :=
      fun o1 h1 o2 h2 h12 =>
        hgood o1 (List.mem_cons_of_mem _ h1) o2 (List.mem_cons_of_mem _ h2) h12
    rw [List.foldl_cons]
    rcases List.mem_cons.mp hop with rfl | hmem
    · by_cases hin : op ∈ rest
      · exact ih hgood' (applyUpdateOne store op) op hin
      · apply applyUpdateOne_sat_chain op rest (applyUpdateOne store op)
          (applyUpdateOne_idem op store)
        intro o ho hsym
        have heq : o = op :=
          hgood o (List.mem_cons_of_mem _ ho) op (List.mem_cons_self ..) hsym
        exact hin (heq ▸ ho)
    · exact ih hgood' (applyUpdateOne store o0) op hmem

theorem foldl_of_saturated :
    ∀ (ops : List UpdateOp) (t : List StoredDoc),
      (∀ op ∈ ops, applyUpdateOne t op = t) → ops.foldl applyUpdateOne t = t := by
  intro ops
  induction ops with
  | nil => intro t _; rfl
  | cons o os ih =>
    intro t h
    rw [List.foldl_cons, h o (List.mem_cons_self ..)]
    exact ih t (fun op hop => h op (List.mem_cons_of_mem _ hop))

/-- Two operations of one batch with the same key are the same operation:
the operation is a function of its symbol, the shared mapping and the shared
timestamp. -/
theorem buildOps_key_determined (batch : List String)
    (data : String → Option DetailRecord) (ts : Nat) :
    ∀ o1 ∈ buildOps batch data ts, ∀ o2 ∈ buildOps batch data ts,
      o1.symbol = o2.symbol → o1 = o2 := by
  intro o1 h1 o2 h2 hsym
  simp only [buildOps] at h1 h2
  obtain ⟨s1, _, rfl⟩ := List.mem_map.mp h1
  obtain ⟨s2, _, rfl⟩ := List.mem_map.mp h2
  have hss : s1 = s2 := hsym
  rw [hss]

/-- C4: one batch's upsert is idempotent: running the same batch again with
the identical chunk, detail mapping and timestamp leaves the store in
exactly the state of the first run. -/
theorem upsert_idempotent (store : List StoredDoc) (chunk : List String)
    (data : String → Option DetailRecord) (ts : Nat) :
    upsertChunk (upsertChunk store chunk data ts) chunk data ts =
      upsertChunk store chunk data ts := by
  simp only [upsertChunk_eq_foldl]
  exact foldl_of_saturated _ _
    (fun op hop => foldl_saturated _ (buildOps_key_determined chunk data ts) store op hop)

/-! ### Frame property of the `$set` update -/

theorem applyUpdateOne_extra (op : UpdateOp) :
    ∀ (store : List StoredDoc) (d : StoredDoc), d ∈ store →
      ∃ d' ∈ applyUpdateOne store op, d'.symbol = d.symbol ∧ d'.extra = d.extra := by
  intro store
  induction store with
  | nil => intro d hd; simp at hd
  | cons e es ih =>
    intro d hd
    by_cases he : e.symbol = op.symbol
    · simp only [applyUpdateOne, if_pos he]
      rcases List.mem_cons.mp hd with rfl | hmem
      · exact ⟨setFields d op, List.mem_cons_self .., he.symm, rfl⟩
      · exact ⟨d, List.mem_cons_of_mem _ hmem, rfl, rfl⟩
    · simp only [applyUpdateOne, if_neg he]
      rcases List.mem_cons.mp hd with rfl | hmem
      · exact ⟨d, List.mem_cons_self .., rfl, rfl⟩
      · obtain ⟨d', hd', hsym, hext⟩ := ih d hmem
        exact ⟨d', List.mem_cons_of_mem _ hd', hsym, hext⟩

theorem applyUpdateOne_untouched (op : UpdateOp) :
    ∀ (store : List StoredDoc) (d : StoredDoc), d ∈ store → op.symbol ≠ d.symbol →
      d ∈ applyUpdateOne store op := by
  intro store
  induction store with
  | nil => intro d hd _; simp at hd
  | cons e es ih =>
    intro d hd hne
    by_cases he : e.symbol = op.symbol
    · simp only [applyUpdateOne, if_pos he]
      rcases List.mem_cons.mp hd with rfl | hmem
      · exact absurd he.symm hne
      · exact List.mem_cons_of_mem _ hmem
    · simp only [applyUpdateOne, if_neg he]
      rcases List.mem_cons.mp hd with rfl | hmem
      · exact List.mem_cons_self ..
      · exact List.mem_cons_of_mem _ (ih d hmem hne)

theorem foldl_extra :
    ∀ (ops : List UpdateOp) (store : List StoredDoc) (d : StoredDoc), d ∈ store →
      ∃ d' ∈ ops.foldl applyUpdateOne store,
        d'.symbol = d.symbol ∧ d'.extra = d.extra := by
  intro ops
  induction ops with
  | nil => intro store d hd; exact ⟨d, hd, rfl, rfl⟩
  | cons op rest ih =>
    intro store d hd
    obtain ⟨d1, h1, hs1, he1⟩ := applyUpdateOne_extra op store d hd
    obtain ⟨d2, h2, hs2, he2⟩ := ih (applyUpdateOne store op) d1 h1
    rw [List.foldl_cons]
    exact ⟨d2, h2, hs2.trans hs1, he2.trans he1⟩

theorem foldl_untouched :
    ∀ (ops : List UpdateOp) (store : List StoredDoc) (d : StoredDoc), d ∈ store →
      (∀ op ∈ ops, op.symbol ≠ d.symbol) → d ∈ ops.foldl applyUpdateOne store := by
  intro ops
  induction ops with
  | nil => intro store d hd _; exact hd
  | cons op rest ih =>
    intro store d hd hne
    rw [List.foldl_cons]
    exact ih (applyUpdateOne store op)
      d (applyUpdateOne_untouched op store d hd (hne op (List.mem_cons_self ..)))
      (fun o ho => hne o (List.mem_cons_of_mem _ ho))

/-- C9: the write is a `$set` field update, not a whole-document replacement:
for any document already in the store, after a batch upsert there is still a
document with its key whose other top-level fields (`extra`) are unchanged;
and a document whose key is not in the chunk is not touched at all. -/
theorem upsert_frame (store : List StoredDoc) (chunk : List String)
    (data : String → Option DetailRecord) (ts : Nat) (d : StoredDoc)
    (hd : d ∈ store) :
    (∃ d' ∈ upsertChunk store chunk data ts,
      d'.symbol = d.symbol ∧ d'.extra = d.extra) ∧
    (d.symbol ∉ chunk → d ∈ upsertChunk store chunk data ts) := by
  simp only [upsertChunk_eq_foldl]
  refine ⟨foldl_extra _ store d hd, ?_⟩
  intro hnot
  apply foldl_untouched _ store d hd
  intro op hop
  simp only [buildOps] at hop
  obtain ⟨s, hs, rfl⟩ := List.mem_map.mp hop
  intro hsym
  have hsd : s = d.symbol := hsym
  exact hnot (hsd ▸ hs)

/-- Witness for C9: a store holding one `A` document with a custom top-level
field; upserting the chunk `[A]` with an empty mapping keeps the field. -/
theorem upsert_frame_witness :
    (∃ d' ∈ upsertChunk exStore ["A"] (fun _ => none) 9,
      d'.symbol = docA.symbol ∧ d'.extra = docA.extra) ∧
    (docA.symbol ∉ ([] : List String) →
      docA ∈ upsertChunk exStore [] (fun _ => none) 9) :=
  ⟨(upsert_frame exStore ["A"] (fun _ => none) 9 docA (by decide)).1,
   (upsert_frame exStore [] (fun _ => none) 9 docA (by decide)).2⟩

/-- C10: the timestamp is sampled once per batch, before the per-symbol
loop, so every write operation constructed for one batch carries the same
`last_updated` value — that batch's timestamp. -/
theorem buildOps_uniform_timestamp (chunk : List String)
    (data : String → Option DetailRecord) (ts : Nat) :
    ∀ op ∈ buildOps chunk data ts, op.last_updated = ts := by
  intro op hop
  simp only [buildOps] at hop
  obtain ⟨s, _, rfl⟩ := List.mem_map.mp hop
  rfl

/-- Witness for C10 at the one-element chunk `[A]` with timestamp 5. -/
theorem buildOps_uniform_timestamp_witness :
    ({ symbol := "A", last_updated := 5, data := [] } : UpdateOp).last_updated = 5 :=
  buildOps_uniform_timestamp ["A"] (fun _ => none) 5
    { symbol := "A", last_updated := 5, data := [] } (by decide)

/-! ### Unordered bulk-write semantics -/

theorem bulk_foldl (rejected : UpdateOp → Bool) :
    ∀ (ops : List UpdateOp) (store : List StoredDoc),
      ops.foldl (fun s op => if rejected op then s else applyUpdateOne s op) store =
        (ops.filter fun op => !rejected op).foldl applyUpdateOne store := by
  intro ops
  induction ops with
  | nil => intro store; rfl
  | cons op rest ih =>
    intro store
    rw [List.foldl_cons, List.filter_cons]
    by_cases h : rejected op
    · simp only [h, if_true, Bool.not_true, if_false]
      exact ih store
    · simp only [h, if_false, Bool.not_false, if_true, List.foldl_cons]
      exact ih (applyUpdateOne store op)

/-- C7: the batch executes with unordered semantics: the resulting store is
exactly the fold of the non-rejected operations — a rejected operation never
prevents any other operation of the same batch from committing — and the
error indication is raised only after attempting all operations, exactly
when some operation was rejected. -/
theorem bulk_unordered_resilience (store : List StoredDoc) (ops : List UpdateOp)
    (rejected : UpdateOp → Bool) :
    ((bulkWriteUnordered store ops rejected).1 =
      (ops.filter fun op => !rejected op).foldl applyUpdateOne store) ∧
    ((bulkWriteUnordered store ops rejected).2 = true ↔
      ∃ op ∈ ops, rejected op = true) := by
  unfold bulkWriteUnordered
  exact ⟨bulk_foldl rejected ops store, List.any_eq_true⟩

/-! ### Failure isolation of the chunk loop -/

theorem runChunks_cons_ok
    (f : Nat → List String → List String → Option (String → Option DetailRecord))
    (modules : List String) (w : Nat → Bool) (clock : Nat → Nat)
    (store : List StoredDoc) (batch : List String) (rest : List (List String))
    (idx : Nat) (d : String → Option DetailRecord)
    (hf : f idx batch modules = some d) (hw : w idx = true) :
    runChunks f modules w clock store (batch :: rest) idx =
      runChunks f modules w clock (upsertChunk store batch d (clock idx)) rest (idx + 1) := by
  simp only [runChunks, hf]
  by_cases hem : (buildOps batch d (clock idx)).isEmpty
  · rw [if_pos hem]
    have hsame : upsertChunk store batch d (clock idx) = store := by
      unfold upsertChunk
      rw [if_pos hem]
    rw [hsame]
  · rw [if_neg hem, if_pos hw]

theorem runChunks_cons_fetchFail
    (f : Nat → List String → List String → Option (String → Option DetailRecord))
    (modules : List String) (w : Nat → Bool) (clock : Nat → Nat)
    (store : List StoredDoc) (batch : List String) (rest : List (List String))
    (idx : Nat) (hf : f idx batch modules = none) :
    runChunks f modules w clock store (batch :: rest) idx = .error store := by
  simp only [runChunks, hf]

theorem runChunks_cons_writeFail
    (f : Nat → List String → List String → Option (String → Option DetailRecord))
    (modules : List String) (w : Nat → Bool) (clock : Nat → Nat)
    (store : List StoredDoc) (batch : List String) (rest : List (List String))
    (idx : Nat) (d : String → Option DetailRecord)
    (hf : f idx batch modules = some d) (hw : w idx = false) (hne : batch ≠ []) :
    runChunks f modules w clock store (batch :: rest) idx = .error store := by
  simp only [runChunks, hf]
  have hem : ¬ (buildOps batch d (clock idx)).isEmpty = true := by
    rw [List.isEmpty_iff]
    simp only [buildOps]
    exact fun h => hne (List.map_eq_nil_iff.mp h)
  rw [if_neg hem, if_neg (by rw [hw]; exact Bool.false_ne_true)]

theorem runChunks_failure
    (f : Nat → List String → List String → Option (String → Option DetailRecord))
    (modules : List String) (w : Nat → Bool) (clock : Nat → Nat) :
    ∀ (pre : List (List String)) (ck : List String) (post : List (List String))
      (store : List StoredDoc) (idx : Nat),
      (∀ j batch, pre.get? j = some batch →
        (f (idx + j) batch modules).isSome = true ∧ w (idx + j) = true) →
      (f (idx + pre.length) ck modules = none ∨
        (w (idx + pre.length) = false ∧ ck ≠ [])) →
      runChunks f modules w clock store (pre ++ ck :: post) idx =
        .error (runChunksOk f modules clock store pre idx) := by
  intro pre
  induction pre with
  | nil =>
    intro ck post store idx _ hfail
    rw [List.nil_append]
    rcases hfail with hf | ⟨hw, hne⟩
    · exact runChunks_cons_fetchFail f modules w clock store ck post idx hf
    · cases hfo : f idx ck modules with
      | none => exact runChunks_cons_fetchFail f modules w clock store ck post idx hfo
      | some d =>
        exact runChunks_cons_writeFail f modules w clock store ck post idx d hfo hw hne
  | cons b pre' ih =>
    intro ck post store idx hok hfail
    have h0 := hok 0 b rfl
    obtain ⟨d, hd⟩ := Option.isSome_iff_exists.mp h0.1
    have hd' : f idx b modules = some d := hd
    have hw' : w idx = true := h0.2
    rw [List.cons_append,
      runChunks_cons_ok f modules w clock store b (pre' ++ ck :: post) idx d hd' hw']
    have hgetD : (f idx b modules).getD (fun _ => none) = d := by rw [hd']; rfl
    have hrhs : runChunksOk f modules clock store (b :: pre') idx =
        runChunksOk f modules clock
          (upsertChunk store b d (clock idx)) pre' (idx + 1) := by
      simp only [runChunksOk, hgetD]
    rw [hrhs]
    refine ih ck post (upsertChunk store b d (clock idx)) (idx + 1) ?_ ?_
    · intro j batch hj
      have h := hok (j + 1) batch hj
      rw [show idx + 1 + j = idx + (j + 1) from by omega]
      exact h
    · rw [show idx + 1 + pre'.length = idx + (b :: pre').length from by
        simp [List.length_cons]; omega]
      exact hfail

/-- C8: if chunk `k`'s detail fetch or bulk write fails, the error propagates
uncaught out of `upsert_company_data`; the store at that point is exactly the
result of persisting the chunks before `k`, so every earlier chunk's
documents remain persisted and no document of chunk `k` or any later chunk
is written. -/
theorem chunk_failure_isolation (store : List StoredDoc)
    (symbols modules : List String) (batch_size : Nat) (hbs : 0 < batch_size)
    (f : Nat → List String → List String → Option (String → Option DetailRecord))
    (w : Nat → Bool) (clock : Nat → Nat)
    (pre : List (List String)) (ck : List String) (post : List (List String))
    (hsplit : chunked symbols batch_size = pre ++ ck :: post)
    (hok : ∀ j batch, pre.get? j = some batch →
      (f (1 + j) batch modules).isSome = true ∧ w (1 + j) = true)
    (hfail : f (1 + pre.length) ck modules = none ∨ w (1 + pre.length) = false) :
    upsert_company_data store symbols modules batch_size f w clock =
      .error (runChunksOk f modules clock store pre 1) := by
  have hs' : batch_size ≠ 0 := Nat.pos_iff_ne_zero.mp hbs
  have hck : ck ≠ [] := by
    have hmem : ck ∈ chunked symbols batch_size := by
      rw [hsplit]
      exact List.mem_append_right _ (List.mem_cons_self ..)
    rw [chunked, if_neg hs'] at hmem
    have hlen := (chunkedGo_mem_length batch_size hs' symbols.length symbols
      le_rfl ck hmem).1
    exact List.length_pos.mp (by omega)
  unfold upsert_company_data
  rw [hsplit]
  refine runChunks_failure f modules w clock pre ck post store 1 hok ?_
  rcases hfail with h | h
  · exact Or.inl h
  · exact Or.inr ⟨h, hck⟩

/-- Witness for C8: four symbols in two chunks; the detail fetch succeeds
for batch 1 and fails for batch 2, so the run errors out with exactly batch
1's documents persisted. -/
theorem chunk_failure_isolation_witness :
    upsert_company_data [] ["A", "B", "C", "D"] [] 2 fEx (fun _ => true)
        (fun i => i) =
      .error (runChunksOk fEx [] (fun i => i) [] [["A", "B"]] 1) := by
  refine chunk_failure_isolation [] ["A", "B", "C", "D"] [] 2 (by decide) fEx
    (fun _ => true) (fun i => i) [["A", "B"]] ["C", "D"] [] (by decide) ?_ ?_
  · intro j batch hj
    cases j with
    | zero =>
      have hb : batch = ["A", "B"] := by
        simpa using hj.symm
      subst hb
      exact ⟨rfl, rfl⟩
    | succ n => simp [List.get?] at hj
  · exact Or.inl rfl
